import Mathlib

/-!
Verification of the schedule-store core of the `escalasmedicas` service
(`src/server.js`): the JSON document model, the slot CRUD routes, the
doctor-name search, the specialty classifier, backup restore, and the
file-load fallback.

JavaScript objects are modelled as insertion-ordered association lists
(`OMap`), matching the enumeration order of the `for..in` loops and the
in-place update behaviour of property assignment for the string keys the
store uses.  JSON values are modelled by `JsonVal`; JavaScript truthiness
of a JSON value is `truthy`.
-/

namespace Escalas

/-- A JSON value, as produced by `JSON.parse` (numbers as integers: the
store never does arithmetic on them). -/
inductive JsonVal where
  | null
  | bool (b : Bool)
  | num (n : Int)
  | str (s : String)
  | arr (xs : List JsonVal)
  | obj (fields : List (String × JsonVal))

/-- JavaScript truthiness of a JSON value (`undefined` is handled at use
sites as `Option.none`). -/
def truthy : JsonVal → Bool
  | .null => false
  | .bool b => b
  | .num n => n != 0
  | .str s => s != ""
  | .arr _ => true
  | .obj _ => true

/-- Insertion-ordered string-keyed map: the model of a JavaScript object. -/
abbrev OMap (α : Type) := List (String × α)

/-- Property read `m[k]`: the first (unique, for well-formed objects)
binding of `k`; `none` models `undefined`. -/
def omapGet {α : Type} (m : OMap α) (k : String) : Option α :=
  match m with
  | [] => none
  | (k2, v) :: t => if k2 = k then some v else omapGet t k

/-- Property write `m[k] = v`: updates the existing binding in place
(keeping its position) or appends a new binding at the end, exactly as
JavaScript property assignment does. -/
def omapSet {α : Type} (m : OMap α) (k : String) (v : α) : OMap α :=
  match m with
  | [] => [(k, v)]
  | (k2, v2) :: t => if k2 = k then (k2, v) :: t else (k2, v2) :: omapSet t k v

/-- `delete m[k]`: removes the binding of `k`. -/
def omapDel {α : Type} (m : OMap α) (k : String) : OMap α :=
  match m with
  | [] => []
  | (k2, v2) :: t => if k2 = k then t else (k2, v2) :: omapDel t k

/-- The keys of an object, in order. -/
def keys {α : Type} (m : OMap α) : List String := m.map Prod.fst

@[simp] theorem keys_nil {α : Type} : keys ([] : OMap α) = [] := rfl

@[simp] theorem keys_cons {α : Type} (p : String × α) (t : OMap α) :
    keys (p :: t) = p.1 :: keys t := rfl

@[simp] theorem keys_append {α : Type} (m m2 : OMap α) :
    keys (m ++ m2) = keys m ++ keys m2 := by
  simp [keys]

theorem omapGet_set_self {α : Type} (m : OMap α) (k : String) (v : α) :
    omapGet (omapSet m k v) k = some v := by
  induction m with
  | nil => simp [omapSet, omapGet]
  | cons p t ih =>
    obtain ⟨k2, v2⟩ := p
    by_cases h : k2 = k <;> simp [omapSet, omapGet, h, ih]

theorem omapGet_set_ne {α : Type} (m : OMap α) (k k2 : String) (v : α)
    (hne : k2 ≠ k) : omapGet (omapSet m k v) k2 = omapGet m k2 := by
  have hne2 : ¬ k = k2 := fun h => hne h.symm
  induction m with
  | nil => simp [omapSet, omapGet, hne2]
  | cons p t ih =>
    obtain ⟨k3, v3⟩ := p
    by_cases h : k3 = k
    · subst h
      simp [omapSet, omapGet, hne2]
    · by_cases h2 : k3 = k2 <;> simp [omapSet, omapGet, h, h2, hne, ih]

theorem omapGet_none_iff {α : Type} (m : OMap α) (k : String) :
    omapGet m k = none ↔ k ∉ keys m := by
  induction m with
  | nil => simp [omapGet]
  | cons p t ih =>
    obtain ⟨k2, v2⟩ := p
    by_cases h : k2 = k
    · subst h
      simp [omapGet]
    · have h2 : ¬ k = k2 := fun he => h he.symm
      simp [omapGet, h, h2, ih]

theorem omapGet_mem {α : Type} (m : OMap α) (k : String) (v : α)
    (h : omapGet m k = some v) : (k, v) ∈ m := by
  induction m with
  | nil => simp [omapGet] at h
  | cons p t ih =>
    obtain ⟨k2, v2⟩ := p
    by_cases h2 : k2 = k
    · subst h2
      simp [omapGet] at h
      simp [h]
    · simp [omapGet, h2] at h
      exact List.mem_cons_of_mem _ (ih h)

theorem omapSet_absent {α : Type} (m : OMap α) (k : String) (v : α)
    (h : omapGet m k = none) : omapSet m k v = m ++ [(k, v)] := by
  induction m with
  | nil => simp [omapSet]
  | cons p t ih =>
    obtain ⟨k2, v2⟩ := p
    by_cases h2 : k2 = k
    · simp [omapGet, h2] at h
    · simp [omapGet, h2] at h
      simp [omapSet, h2, ih h]

theorem omapSet_keys_of_mem {α : Type} (m : OMap α) (k : String) (v v2 : α)
    (h : omapGet m k = some v2) : keys (omapSet m k v) = keys m := by
  induction m with
  | nil => simp [omapGet] at h
  | cons p t ih =>
    obtain ⟨k3, v3⟩ := p
    by_cases h2 : k3 = k
    · simp [omapSet, h2]
    · simp [omapGet, h2] at h
      simp [omapSet, h2, ih h]

theorem omapGet_del_self {α : Type} (m : OMap α) (k : String)
    (hnd : (keys m).Nodup) : omapGet (omapDel m k) k = none := by
  induction m with
  | nil => simp [omapDel, omapGet]
  | cons p t ih =>
    obtain ⟨k2, v2⟩ := p
    simp only [keys_cons, List.nodup_cons] at hnd
    by_cases h : k2 = k
    · subst h
      simp only [omapDel, if_pos rfl]
      rw [omapGet_none_iff]
      exact hnd.1
    · simp [omapDel, omapGet, h]
      exact ih hnd.2

theorem omapSet_set_same {α : Type} (m : OMap α) (k : String) (v v2 : α) :
    omapSet (omapSet m k v) k v2 = omapSet m k v2 := by
  induction m with
  | nil => simp [omapSet]
  | cons p t ih =>
    obtain ⟨k3, v3⟩ := p
    by_cases h : k3 = k <;> simp [omapSet, h, ih]

/-! ## The schedule document (§ data model of `server.js`)

`data.medicalSchedule` is a three-level nesting of JavaScript objects:
office id → day → time slot → stored doctor data.  The stored value is a
general `JsonVal` because `/api/restore` accepts arbitrary JSON there. -/

abbrev DaySchedule := OMap JsonVal
abbrev OfficeSchedule := OMap DaySchedule
abbrev MedicalSchedule := OMap OfficeSchedule

/-- The lookup `data.medicalSchedule[officeId][day][timeSlot]`
(`none` = `undefined` at some level). -/
def resolveAddr (ms : MedicalSchedule) (o d t : String) : Option JsonVal :=
  (omapGet ms o).bind (fun off => (omapGet off d).bind (fun ds => omapGet ds t))

/-- The mutation of `POST /api/schedule` (server.js:66-78) after
validation: lazily create the office and day objects when absent, then
assign `doctorData` at the time-slot key. -/
def setSlot (ms : MedicalSchedule) (o d t : String) (v : JsonVal) :
    MedicalSchedule :=
  omapSet ms o
    (omapSet ((omapGet ms o).getD [])
      d (omapSet ((omapGet ((omapGet ms o).getD []) d).getD []) t v))

/-- The full `POST /api/schedule` route (server.js:53-93): the guard
`!officeId || !day || !timeSlot || !doctorData` answers 400 (`none`);
otherwise the slot is written and the new `medicalSchedule` persisted. -/
def setSlotReq (ms : MedicalSchedule) (o d t : String) (v : JsonVal) :
    Option MedicalSchedule :=
  if o = "" ∨ d = "" ∨ t = "" ∨ truthy v = false then none
  else some (setSlot ms o d t v)

/-- The `DELETE /api/schedule/:officeId/:day/:timeSlot` route
(server.js:96-133): each level is tested for truthiness (a missing key
gives `undefined`, falsy); on success the slot is deleted and the day
object removed when it became empty; `none` models the 404 response, in
which case nothing is persisted. -/
def deleteSlot (ms : MedicalSchedule) (o d t : String) :
    Option MedicalSchedule :=
  match omapGet ms o with
  | none => none
  | some off =>
    match omapGet off d with
    | none => none
    | some ds =>
      match omapGet ds t with
      | none => none
      | some v =>
        if truthy v then
          some (omapSet ms o
            (if (omapDel ds t).isEmpty then omapDel off d
             else omapSet off d (omapDel ds t)))
        else none

/-- An assignment is present at an address exactly when the stored value
is truthy — the condition server.js:102-104 tests. -/
def existsAssignment (ms : MedicalSchedule) (o d t : String) : Bool :=
  match resolveAddr ms o d t with
  | some v => truthy v
  | none => false

/-- Well-formedness every JavaScript in-memory object has by
construction: keys are unique at each nesting level. -/
def msWF (ms : MedicalSchedule) : Prop :=
  (keys ms).Nodup ∧
    ∀ p ∈ ms, (keys p.2).Nodup ∧ ∀ q ∈ p.2, (keys q.2).Nodup

instance msWF_dec (ms : MedicalSchedule) : Decidable (msWF ms) := by
  unfold msWF
  infer_instance

/-- C1: for every valid non-empty officeId, day, timeSlot and truthy
assignment, `SetSlot` succeeds (creating the office/day containers as
needed, overwriting without merge) and a subsequent `GetAll` holds
exactly that assignment at the address `(officeId, day, timeSlot)`. -/
theorem setSlot_then_get (ms : MedicalSchedule) (o d t : String) (v : JsonVal)
    (ho : o ≠ "") (hd : d ≠ "") (ht : t ≠ "") (hv : truthy v = true) :
    setSlotReq ms o d t v = some (setSlot ms o d t v) ∧
    resolveAddr (setSlot ms o d t v) o d t = some v := by
  constructor
  · simp [setSlotReq, ho, hd, ht, hv]
  · simp [setSlot, resolveAddr, omapGet_set_self]

/-- Witness for C1: the spec §8 scenario (office `card_1`, Monday 09:00,
Dr. Silva) on an empty store. -/
theorem setSlot_then_get_witness :
    ("card_1" : String) ≠ "" ∧
    truthy (JsonVal.obj
      [("name", JsonVal.str "Dr. Silva"), ("type", JsonVal.str "consult")]) = true ∧
    resolveAddr
      (setSlot [] "card_1" "Monday" "09:00"
        (JsonVal.obj
          [("name", JsonVal.str "Dr. Silva"), ("type", JsonVal.str "consult")]))
      "card_1" "Monday" "09:00" =
      some (JsonVal.obj
        [("name", JsonVal.str "Dr. Silva"), ("type", JsonVal.str "consult")]) :=
  ⟨by decide, rfl,
    (setSlot_then_get [] "card_1" "Monday" "09:00"
      (JsonVal.obj
        [("name", JsonVal.str "Dr. Silva"), ("type", JsonVal.str "consult")])
      (by decide) (by decide) (by decide) rfl).2⟩

/-- C3: with "an assignment exists" read as the address resolving to a
truthy stored value (every real assignment is an object, hence truthy),
`DeleteSlot` answers 404 exactly when no assignment exists, and after a
successful deletion the address no longer resolves at all. -/
theorem deleteSlot_found_iff (ms : MedicalSchedule) (o d t : String)
    (hwf : msWF ms) :
    (existsAssignment ms o d t = false → deleteSlot ms o d t = none) ∧
    (existsAssignment ms o d t = true →
      ∃ ms2, deleteSlot ms o d t = some ms2 ∧ resolveAddr ms2 o d t = none) := by
  cases ho : omapGet ms o with
  | none =>
    refine ⟨fun _ => ?_, fun hex => ?_⟩
    · simp [deleteSlot, ho]
    · simp [existsAssignment, resolveAddr, ho] at hex
  | some off =>
    cases hd : omapGet off d with
    | none =>
      refine ⟨fun _ => ?_, fun hex => ?_⟩
      · simp [deleteSlot, ho, hd]
      · simp [existsAssignment, resolveAddr, ho, hd] at hex
    | some ds =>
      cases ht : omapGet ds t with
      | none =>
        refine ⟨fun _ => ?_, fun hex => ?_⟩
        · simp [deleteSlot, ho, hd, ht]
        · simp [existsAssignment, resolveAddr, ho, hd, ht] at hex
      | some v =>
        have hoffwf := hwf.2 (o, off) (omapGet_mem ms o off ho)
        have hdswf := (hoffwf.2 (d, ds) (omapGet_mem off d ds hd))
        refine ⟨fun hex => ?_, fun hex => ?_⟩
        · simp [existsAssignment, resolveAddr, ho, hd, ht] at hex
          simp [deleteSlot, ho, hd, ht, hex]
        · simp [existsAssignment, resolveAddr, ho, hd, ht] at hex
          refine ⟨omapSet ms o
            (if (omapDel ds t).isEmpty then omapDel off d
             else omapSet off d (omapDel ds t)), ?_, ?_⟩
          · simp [deleteSlot, ho, hd, ht, hex]
          · by_cases hemp : (omapDel ds t).isEmpty
            · simp [resolveAddr, omapGet_set_self, hemp,
                omapGet_del_self off d hoffwf.1]
            · simp [resolveAddr, omapGet_set_self, hemp,
                omapGet_del_self ds t hdswf]

/-- Witness for C3: deleting an existing assignment from a well-formed
store succeeds and removes the address. -/
theorem deleteSlot_found_iff_witness :
    msWF [("card_1", [("Monday", [("09:00", JsonVal.str "x")])])] ∧
    existsAssignment [("card_1", [("Monday", [("09:00", JsonVal.str "x")])])]
      "card_1" "Monday" "09:00" = true ∧
    (∃ ms2,
      deleteSlot [("card_1", [("Monday", [("09:00", JsonVal.str "x")])])]
        "card_1" "Monday" "09:00" = some ms2 ∧
      resolveAddr ms2 "card_1" "Monday" "09:00" = none) :=
  ⟨by decide, rfl,
    (deleteSlot_found_iff
      [("card_1", [("Monday", [("09:00", JsonVal.str "x")])])]
      "card_1" "Monday" "09:00" (by decide)).2 rfl⟩

/-- C10: when the stored value at an address is falsy (null, false, 0 or
the empty string — reachable only via `/api/restore`), the delete route
answers 404 even though the key is present, and persists nothing. -/
theorem deleteSlot_falsy_notfound (ms : MedicalSchedule) (o d t : String)
    (v : JsonVal) (hres : resolveAddr ms o d t = some v)
    (hfalsy : truthy v = false) :
    deleteSlot ms o d t = none := by
  unfold resolveAddr at hres
  cases ho : omapGet ms o with
  | none => simp [ho] at hres
  | some off =>
    cases hd : omapGet off d with
    | none => simp [ho, hd] at hres
    | some ds =>
      cases ht : omapGet ds t with
      | none => simp [ho, hd, ht] at hres
      | some v2 =>
        simp [ho, hd, ht] at hres
        subst hres
        simp [deleteSlot, ho, hd, ht, hfalsy]

/-- Witness for C10: a slot restored with value `false` is reported 404. -/
theorem deleteSlot_falsy_notfound_witness :
    resolveAddr [("off_1", [("Mon", [("08:00", JsonVal.bool false)])])]
      "off_1" "Mon" "08:00" = some (JsonVal.bool false) ∧
    truthy (JsonVal.bool false) = false ∧
    deleteSlot [("off_1", [("Mon", [("08:00", JsonVal.bool false)])])]
      "off_1" "Mon" "08:00" = none :=
  ⟨rfl, rfl,
    deleteSlot_falsy_notfound
      [("off_1", [("Mon", [("08:00", JsonVal.bool false)])])]
      "off_1" "Mon" "08:00" (JsonVal.bool false) rfl rfl⟩

/-- The pruning invariant claimed by the spec: no office with zero days
and no day with zero slots. -/
def noEmptyContainers (ms : MedicalSchedule) : Bool :=
  ms.all (fun op => !op.2.isEmpty && op.2.all (fun dp => !dp.2.isEmpty))

/-- A store (reachable by two `SetSlot`s and a restore of a backup with a
day left empty) on which deletion exhibits both an un-pruned empty office
and a persisted pre-existing empty day. -/
def exC2ms : MedicalSchedule :=
  [("card_1", [("Monday",
      [("09:00", JsonVal.obj [("name", JsonVal.str "Dr. Silva")])])]),
   ("derm_2", [("Tuesday", [])])]

/-- C2 counterexample: deleting the only slot of office `card_1` succeeds
but persists `card_1` as an office entry with zero assignments underneath
(only the day level is pruned), and the empty day under `derm_2` is also
persisted — the claimed invariant fails. -/
theorem deleteSlot_persists_empty_office :
    deleteSlot exC2ms "card_1" "Monday" "09:00" =
      some [("card_1", []), ("derm_2", [("Tuesday", [])])] ∧
    noEmptyContainers [("card_1", []), ("derm_2", [("Tuesday", [])])] = false :=
  ⟨rfl, rfl⟩

/-- C2 amended: a successful `DeleteSlot(o, d, t)` prunes only at the
deleted address and only one level: day `d` of office `o` is never left
behind empty (it is removed when its last slot goes), but office `o`
itself is kept, possibly with zero days. -/
theorem deleteSlot_prunes_day (ms : MedicalSchedule) (o d t : String)
    (ms2 : MedicalSchedule) (hwf : msWF ms)
    (hdel : deleteSlot ms o d t = some ms2) :
    ∃ off2, omapGet ms2 o = some off2 ∧
      omapGet off2 d ≠ some ([] : DaySchedule) := by
  unfold deleteSlot at hdel
  cases ho : omapGet ms o with
  | none => simp [ho] at hdel
  | some off =>
    cases hd : omapGet off d with
    | none => simp [ho, hd] at hdel
    | some ds =>
      cases ht : omapGet ds t with
      | none => simp [ho, hd, ht] at hdel
      | some v =>
        have hoffwf := hwf.2 (o, off) (omapGet_mem ms o off ho)
        cases htr : truthy v with
        | false => simp [ho, hd, ht, htr] at hdel
        | true =>
          simp only [ho, hd, ht, htr, if_true, Option.some.injEq] at hdel
          subst hdel
          refine ⟨_, omapGet_set_self _ _ _, ?_⟩
          by_cases hemp : (omapDel ds t).isEmpty
          · simp only [if_pos hemp]
            rw [omapGet_del_self off d hoffwf.1]
            intro h
            exact Option.noConfusion h
          · simp only [if_neg hemp, omapGet_set_self]
            intro h
            have h2 : omapDel ds t = [] := Option.some.inj h
            rw [h2] at hemp
            exact hemp rfl

/-- Witness for the amended C2 on the concrete store `exC2ms`. -/
theorem deleteSlot_prunes_day_witness :
    msWF exC2ms ∧
    (∃ off2,
      omapGet ([("card_1", []), ("derm_2", [("Tuesday", [])])] :
        MedicalSchedule) "card_1" = some off2 ∧
      omapGet off2 "Monday" ≠ some ([] : DaySchedule)) :=
  ⟨by decide,
    deleteSlot_prunes_day exC2ms "card_1" "Monday" "09:00"
      [("card_1", []), ("derm_2", [("Tuesday", [])])] (by decide) rfl⟩

/-! ## Load, save, restore and GetAll (server.js:18-50, 212-238)

The durable file round-trips documents through `JSON.stringify` /
`JSON.parse`, which is the identity on `JsonVal` documents, so the
persisted state is modelled by the document itself. -/

/-- The durable file `medical_schedule_data.json` as `fs.readFile` +
`JSON.parse` see it: missing, unreadable, readable but not valid JSON,
or holding a JSON value. -/
inductive FileState where
  | absent
  | readError
  | parseError
  | stored (doc : JsonVal)

/-- The fresh default document of server.js:24. -/
def freshDoc (now : String) : OMap JsonVal :=
  [("medicalSchedule", JsonVal.obj []), ("lastUpdated", JsonVal.str now)]

/-- `readData` (server.js:18-26): read and parse the durable file inside
a `try`; every failure path lands in the `catch` and yields the fresh
default document, so the function is total and never surfaces an error. -/
def readData (fs : FileState) (now : String) : JsonVal :=
  match fs with
  | .stored doc => doc
  | _ => JsonVal.obj (freshDoc now)

/-- C8: `Load` never fails the caller — for every durable-file state
other than a successfully parsed document (file absent, unreadable, or
corrupt), it degrades to the fresh default: empty `medicalSchedule` and
`lastUpdated` set to the current time. -/
theorem readData_never_fails (fs : FileState) (now : String)
    (h : ∀ doc, fs ≠ FileState.stored doc) :
    readData fs now = JsonVal.obj (freshDoc now) := by
  cases fs with
  | stored doc => exact absurd rfl (h doc)
  | absent => rfl
  | readError => rfl
  | parseError => rfl

/-- Witness for C8: the first-run state (no file yet). -/
theorem readData_never_fails_witness :
    (∀ doc, FileState.absent ≠ FileState.stored doc) ∧
    readData FileState.absent "2024-01-01T00:00:00.000Z" =
      JsonVal.obj (freshDoc "2024-01-01T00:00:00.000Z") :=
  ⟨fun _ h => FileState.noConfusion h,
    readData_never_fails FileState.absent "2024-01-01T00:00:00.000Z"
      (fun _ h => FileState.noConfusion h)⟩

/-- `saveData` (server.js:29-32): stamp `lastUpdated` with the current
time, then overwrite the whole durable file with the document. -/
def saveData (doc : OMap JsonVal) (now : String) : OMap JsonVal :=
  omapSet doc "lastUpdated" (JsonVal.str now)

/-- `POST /api/restore` (server.js:212-238): the guard
`!backupData.medicalSchedule` answers 400 (`none`) when the field is
absent or falsy; otherwise the supplied document is saved wholesale. -/
def restoreReq (body : OMap JsonVal) (now : String) : Option (OMap JsonVal) :=
  match omapGet body "medicalSchedule" with
  | none => none
  | some v => if truthy v then some (saveData body now) else none

/-- `GET /api/schedule` (server.js:35-50) projected to its `data` field:
the `medicalSchedule` of the loaded document. -/
def getAllMS (doc : OMap JsonVal) : Option JsonVal :=
  omapGet doc "medicalSchedule"

/-- `Restore(body)` followed by `GetAll`: when restore answers 400
nothing is saved, so `GetAll` still reads the prior document. -/
def restoreThenGetAll (prior body : OMap JsonVal) (now : String) :
    Option JsonVal :=
  match restoreReq body now with
  | some doc => getAllMS doc
  | none => getAllMS prior

/-- The prior persisted document used in the restore scenarios. -/
def exC4prior : OMap JsonVal :=
  [("medicalSchedule", JsonVal.obj []), ("lastUpdated", JsonVal.str "t0")]

/-- C4 counterexample: the document `{medicalSchedule: null}` contains a
`medicalSchedule` field, yet restore rejects it (400), so a subsequent
`GetAll` returns the prior schedule, not `null`. -/
theorem restore_null_not_roundtrip :
    omapGet [("medicalSchedule", JsonVal.null)] "medicalSchedule" =
      some JsonVal.null ∧
    restoreThenGetAll exC4prior [("medicalSchedule", JsonVal.null)] "t1" =
      some (JsonVal.obj []) ∧
    some (JsonVal.obj []) ≠ some JsonVal.null :=
  ⟨rfl, rfl, fun h => JsonVal.noConfusion (Option.some.inj h)⟩

/-- C4 amended: for every document whose `medicalSchedule` field is
present and truthy, `Restore` then `GetAll` yields exactly that field —
wholesale replacement of the prior document, no merge. -/
theorem restore_roundtrip (prior body : OMap JsonVal) (now : String)
    (v : JsonVal) (hms : omapGet body "medicalSchedule" = some v)
    (htr : truthy v = true) :
    restoreThenGetAll prior body now = some v := by
  unfold restoreThenGetAll restoreReq
  rw [hms]
  simp only [htr, if_true]
  unfold getAllMS saveData
  rw [omapGet_set_ne body "lastUpdated" "medicalSchedule" (JsonVal.str now)
    (by decide)]
  exact hms

/-- Witness for the amended C4 on a one-office backup document. -/
theorem restore_roundtrip_witness :
    omapGet [("medicalSchedule", JsonVal.obj [("card_1", JsonVal.obj [])])]
      "medicalSchedule" = some (JsonVal.obj [("card_1", JsonVal.obj [])]) ∧
    truthy (JsonVal.obj [("card_1", JsonVal.obj [])]) = true ∧
    restoreThenGetAll exC4prior
      [("medicalSchedule", JsonVal.obj [("card_1", JsonVal.obj [])])] "t1" =
      some (JsonVal.obj [("card_1", JsonVal.obj [])]) :=
  ⟨rfl, rfl,
    restore_roundtrip exC4prior
      [("medicalSchedule", JsonVal.obj [("card_1", JsonVal.obj [])])] "t1"
      (JsonVal.obj [("card_1", JsonVal.obj [])]) rfl rfl⟩

/-- C9 counterexample: `{medicalSchedule: 0}` has the field — with a
value of type number — yet restore answers 400 instead of persisting. -/
theorem restore_falsy_field_rejected :
    omapGet [("medicalSchedule", JsonVal.num 0)] "medicalSchedule" =
      some (JsonVal.num 0) ∧
    restoreReq [("medicalSchedule", JsonVal.num 0)] "t1" = none :=
  ⟨rfl, rfl⟩

/-- The acceptance condition as amended: the `medicalSchedule` field is
present and truthy (no deeper schema validation). -/
def restorePayloadOk (body : OMap JsonVal) : Bool :=
  match omapGet body "medicalSchedule" with
  | some v => truthy v
  | none => false

/-- C9 amended: restore fails with ValidationError exactly when the
`medicalSchedule` field is absent or falsy; whenever it is truthy — any
type otherwise, no deep schema validation — the supplied document is
persisted wholesale, modulo the `lastUpdated` stamp `saveData` always
applies. -/
theorem restore_validation (body : OMap JsonVal) (now : String) :
    (restorePayloadOk body = false → restoreReq body now = none) ∧
    (restorePayloadOk body = true →
      restoreReq body now =
        some (omapSet body "lastUpdated" (JsonVal.str now))) := by
  unfold restorePayloadOk restoreReq saveData
  cases omapGet body "medicalSchedule" with
  | none => simp
  | some v => cases h : truthy v <;> simp [h]

/-- Witness for the amended C9: one rejected and one accepted payload. -/
theorem restore_validation_witness :
    restorePayloadOk [("medicalSchedule", JsonVal.bool false)] = false ∧
    restoreReq [("medicalSchedule", JsonVal.bool false)] "t2" = none ∧
    restorePayloadOk [("medicalSchedule", JsonVal.arr [])] = true ∧
    restoreReq [("medicalSchedule", JsonVal.arr [])] "t2" =
      some [("medicalSchedule", JsonVal.arr []),
            ("lastUpdated", JsonVal.str "t2")] :=
  ⟨rfl,
    (restore_validation [("medicalSchedule", JsonVal.bool false)] "t2").1 rfl,
    rfl,
    (restore_validation [("medicalSchedule", JsonVal.arr [])] "t2").2 rfl⟩

/-! ## The specialty classifier (server.js:241-252) -/

/-- JavaScript `s.split(sep)` for a one-character separator, on the
character list of `s`. -/
def splitChars (sep : Char) : List Char → List (List Char)
  | [] => [[]]
  | c :: cs =>
    match splitChars sep cs with
    | [] => [[c]]
    | h :: t => if c = sep then [] :: h :: t else (c :: h) :: t

/-- `getSpecialtyFromOfficeId` (server.js:241-252): look up
`officeId.split('_')[0]` in the fixed table; an unmatched prefix gives
`undefined`, and `|| 'geral'` turns it into the fallback label. -/
def getSpecialtyFromOfficeId (officeId : String) : String :=
  let pfx := String.mk ((splitChars '_' officeId.data).headD [])
  if pfx = "derm" then "dermatologia"
  else if pfx = "card" then "cardiologia"
  else if pfx = "oftal" then "oftalmologia"
  else if pfx = "ped" then "pediatria"
  else if pfx = "gine" then "ginecologia"
  else if pfx = "psiq" then "psiquiatria"
  else "geral"

/-- C6 counterexample: the classifier's labels are the Portuguese
strings of the source table, not the English words of the claim:
`card_201` classifies to `"cardiologia"`, not `"cardiology"`, and
`unknown_1` to `"geral"`, not `"general"`. -/
theorem specialty_labels_portuguese :
    getSpecialtyFromOfficeId "card_201" = "cardiologia" ∧
    getSpecialtyFromOfficeId "card_201" ≠ "cardiology" ∧
    getSpecialtyFromOfficeId "unknown_1" = "geral" ∧
    getSpecialtyFromOfficeId "unknown_1" ≠ "general" :=
  ⟨rfl, by decide, rfl, by decide⟩

/-- Classifier modelled on the amended spec sentence: take the prefix of
`officeId` preceding its first `_` (the entire id when no separator is
present) and map `derm→dermatologia, card→cardiologia,
oftal→oftalmologia, ped→pediatria, gine→ginecologia, psiq→psiquiatria`,
every other prefix to the generic `geral` label. -/
def specSpecialty (officeId : String) : String :=
  let pfx := String.mk (officeId.data.takeWhile (fun c => c != '_'))
  if pfx = "derm" then "dermatologia"
  else if pfx = "card" then "cardiologia"
  else if pfx = "oftal" then "oftalmologia"
  else if pfx = "ped" then "pediatria"
  else if pfx = "gine" then "ginecologia"
  else if pfx = "psiq" then "psiquiatria"
  else "geral"

theorem splitChars_ne_nil (sep : Char) (l : List Char) :
    splitChars sep l ≠ [] := by
  cases l with
  | nil => simp [splitChars]
  | cons c cs =>
    simp only [splitChars]
    cases h : splitChars sep cs with
    | nil => simp
    | cons h2 t => by_cases hc : c = sep <;> simp [hc]

theorem splitChars_head (sep : Char) (l : List Char) :
    (splitChars sep l).headD [] = l.takeWhile (fun c => c != sep) := by
  induction l with
  | nil => rfl
  | cons c cs ih =>
    simp only [splitChars]
    cases h : splitChars sep cs with
    | nil => exact absurd h (splitChars_ne_nil sep cs)
    | cons h2 t =>
      rw [h] at ih
      simp only [List.headD_cons] at ih
      by_cases hc : c = sep
      · subst hc
        simp [List.takeWhile_cons]
      · simp [List.takeWhile_cons, hc, ih]

/-- C6 amended: the classifier agrees everywhere with the spec's
prefix-table description, with the Portuguese labels of the source. -/
theorem specialty_classifier_correct (officeId : String) :
    getSpecialtyFromOfficeId officeId = specSpecialty officeId := by
  unfold getSpecialtyFromOfficeId specSpecialty
  rw [splitChars_head]

/-! ## Doctor search (server.js:136-187) -/

/-- `s.toLowerCase()` as a character list (per-character lowering — the
ids and names the store uses are ASCII). -/
def lowerChars (s : String) : List Char := s.data.map Char.toLower

/-- Character-list version of "starts with". -/
def listPre : List Char → List Char → Bool
  | [], _ => true
  | _ :: _, [] => false
  | a :: l1, b :: l2 => a == b && listPre l1 l2

/-- Character-list version of `includes`: the needle occurs somewhere. -/
def listSub (n : List Char) : List Char → Bool
  | [] => n.isEmpty
  | c :: cs => listPre n (c :: cs) || listSub n cs

/-- `hay.toLowerCase().includes(q.toLowerCase())` (server.js:155). -/
def containsLC (hay q : String) : Bool := listSub (lowerChars q) (lowerChars hay)

/-- One matched occurrence met during the scan: the doctor name, the
address it was found at, and the stored value. -/
structure Occ where
  name : String
  office : String
  day : String
  time : String
  assign : JsonVal

/-- Reading field `f` of the stored value: a field of an object,
`undefined` (`none`) on other values (`null` is handled at the use
site, where reading a property of it throws). -/
def getField (v : JsonVal) (f : String) : Option JsonVal :=
  match v with
  | .obj fs => omapGet fs f
  | _ => none

/-- `doctor.hours || ''` and `doctor.note || ''` (server.js:166,168). -/
def fieldOrEmpty (v : JsonVal) (f : String) : JsonVal :=
  match getField v f with
  | some x => if truthy x then x else JsonVal.str ""
  | none => JsonVal.str ""

/-- An element of `foundDoctors[name].schedules` (server.js:162-169);
`type` is copied verbatim (`none` = `undefined`, dropped by the JSON
serializer). -/
structure SchedEntry where
  office : String
  day : String
  time : String
  hours : JsonVal
  type : Option JsonVal
  note : JsonVal

/-- The entry pushed for a matched occurrence. -/
def occEntry (oc : Occ) : SchedEntry :=
  { office := oc.office, day := oc.day, time := oc.time,
    hours := fieldOrEmpty oc.assign "hours",
    type := getField oc.assign "type",
    note := fieldOrEmpty oc.assign "note" }

/-- A value of `foundDoctors[name]` (server.js:157-160). -/
structure DoctorGroup where
  schedules : List SchedEntry
  specialty : String

/-- The match test of server.js:155,
`doctor.name && doctor.name.toLowerCase().includes(name.toLowerCase())`:
reading `.name` on `null` throws a `TypeError`, as does calling
`.toLowerCase()` on a truthy non-string name — both land in the route's
`catch` (HTTP 500), modelled by `Except.error`. -/
def matchName (q : String) (v : JsonVal) : Except Unit (Option String) :=
  match v with
  | .null => .error ()
  | .obj fs =>
    match omapGet fs "name" with
    | none => .ok none
    | some nv =>
      if truthy nv then
        match nv with
        | .str s => .ok (if containsLC s q then some s else none)
        | _ => .error ()
      else .ok none
  | _ => .ok none

/-- `foundDoctors` update for one matched doctor (server.js:156-169):
create the group — empty schedules, specialty classified from the
current office id — when the name is not yet a key, then push the
schedules entry. -/
def pushEntry (acc : OMap DoctorGroup) (oc : Occ) : OMap DoctorGroup :=
  let acc2 :=
    match omapGet acc oc.name with
    | none => omapSet acc oc.name ⟨[], getSpecialtyFromOfficeId oc.office⟩
    | some _ => acc
  match omapGet acc2 oc.name with
  | none => acc2
  | some g => omapSet acc2 oc.name ⟨g.schedules ++ [occEntry oc], g.specialty⟩

/-- The inner `for (const time in ...)` loop of server.js:153-171. -/
def scanSlots (q off dy : String) :
    List (String × JsonVal) → OMap DoctorGroup → Except Unit (OMap DoctorGroup)
  | [], acc => .ok acc
  | (t, v) :: rest, acc =>
    match matchName q v with
    | .error e => .error e
    | .ok none => scanSlots q off dy rest acc
    | .ok (some nm) => scanSlots q off dy rest (pushEntry acc ⟨nm, off, dy, t, v⟩)

/-- The `for (const day in ...)` loop of server.js:152. -/
def scanDays (q off : String) :
    List (String × DaySchedule) → OMap DoctorGroup → Except Unit (OMap DoctorGroup)
  | [], acc => .ok acc
  | (dy, ds) :: rest, acc =>
    match scanSlots q off dy ds acc with
    | .error e => .error e
    | .ok acc2 => scanDays q off rest acc2

/-- The outer `for (const officeId in ...)` loop of server.js:151. -/
def scanOffices (q : String) :
    List (String × OfficeSchedule) → OMap DoctorGroup → Except Unit (OMap DoctorGroup)
  | [], acc => .ok acc
  | (off, os) :: rest, acc =>
    match scanDays q off os acc with
    | .error e => .error e
    | .ok acc2 => scanOffices q rest acc2

/-- The `results` value of the search response: the short-query guard
answers the empty ARRAY literal `[]` of server.js:143, the scan answers
the `foundDoctors` object — two different JSON values. -/
inductive SearchResults where
  | emptyArr
  | grouped (m : OMap DoctorGroup)

/-- `GET /api/search/doctor` (server.js:136-187).  The query is `none`
when the `name` parameter is absent; `!name || name.length < 2` answers
`results: []` before `readData` is ever called. -/
def searchRoute (q : Option String) (ms : MedicalSchedule) :
    Except Unit SearchResults :=
  match q with
  | none => .ok .emptyArr
  | some s =>
    if s = "" ∨ s.length < 2 then .ok .emptyArr
    else
      match scanOffices s ms [] with
      | .error e => .error e
      | .ok found => .ok (.grouped found)

/-- C7 amended: an absent or shorter-than-2-characters query is answered
immediately with the empty array `results: []` (not the empty grouping
object `{}`), independent of the store's contents — no document load. -/
theorem search_short_query (q : Option String) (ms : MedicalSchedule)
    (h : ∀ s, q = some s → s.length < 2) :
    searchRoute q ms = .ok SearchResults.emptyArr := by
  cases q with
  | none => rfl
  | some s =>
    have hs := h s rfl
    simp [searchRoute, hs]

/-- The store of the search scenarios: `Ana Souza` twice (offices
`card_1` and `derm_2`) and `mariana` once. -/
def exSearchMS : MedicalSchedule :=
  [("card_1",
     [("Monday",
        [("09:00", JsonVal.obj
           [("name", JsonVal.str "Ana Souza"),
            ("type", JsonVal.str "consulta")]),
         ("10:00", JsonVal.obj
           [("name", JsonVal.str "mariana"),
            ("type", JsonVal.str "plantao")])])]),
   ("derm_2",
     [("Tuesday",
        [("09:00", JsonVal.obj
           [("name", JsonVal.str "Ana Souza"),
            ("type", JsonVal.str "consulta"),
            ("hours", JsonVal.str "9-12")])])])]

/-- C7 counterexample: on a populated store, the query `"a"` (length 1)
is answered with the empty array — a different JSON value than the
`results: {}` empty grouping the claim states (which is what a ≥2-char
query without matches produces, last conjunct). -/
theorem search_short_query_not_object :
    searchRoute (some "a") exSearchMS = .ok SearchResults.emptyArr ∧
    SearchResults.emptyArr ≠ SearchResults.grouped [] ∧
    searchRoute (some "zz") exSearchMS = .ok (SearchResults.grouped []) :=
  ⟨rfl, fun h => SearchResults.noConfusion h, rfl⟩

/-- Witness for the amended C7: the short query `"a"` on the populated
store. -/
theorem search_short_query_witness :
    (∀ s, some "a" = some s → s.length < 2) ∧
    searchRoute (some "a") exSearchMS = .ok SearchResults.emptyArr :=
  ⟨fun s h => Option.some.inj h ▸ (by decide : ("a" : String).length < 2),
    search_short_query (some "a") exSearchMS
      (fun s h => Option.some.inj h ▸ (by decide : ("a" : String).length < 2))⟩

/-! ### The spec's declarative description of the search (for C5)

The theorem `search_matches_spec` below proves the imperative
accumulator scan equal to this pipeline: flatten the document in
insertion order, keep the assignments whose string `name` contains the
query case-insensitively, group the occurrences by name in
first-encounter order, the specialty classified once from the office of
the first-encountered occurrence. -/

/-- The `name` field of an assignment, when it is a string. -/
def strNameOf (v : JsonVal) : Option String :=
  match v with
  | .obj fs =>
    match omapGet fs "name" with
    | some (.str s) => some s
    | _ => none
  | _ => none

/-- Spec-side match: `some name` when the assignment's name contains the
query as a case-insensitive substring. -/
def specMatch (q : String) (v : JsonVal) : Option String :=
  match strNameOf v with
  | some s => if containsLC s q then some s else none
  | none => none

/-- Matched occurrences of one day's slots, in insertion order. -/
def occsOfSlots (q off dy : String) (slots : List (String × JsonVal)) :
    List Occ :=
  slots.filterMap (fun tp =>
    (specMatch q tp.2).map (fun nm => ⟨nm, off, dy, tp.1, tp.2⟩))

/-- Matched occurrences of one office, day by day. -/
def occsOfDays (q off : String) (days : List (String × DaySchedule)) :
    List Occ :=
  days.flatMap (fun dp => occsOfSlots q off dp.1 dp.2)

/-- Every matched occurrence of the document: office by office, day by
day, slot by slot, in insertion order. -/
def occsOf (q : String) (ms : MedicalSchedule) : List Occ :=
  ms.flatMap (fun op => occsOfDays q op.1 op.2)

/-- First occurrences of a list of names (those not in `seen`), kept in
encounter order. -/
def firstOccs (seen : List String) : List String → List String
  | [] => []
  | n :: rest =>
    if n ∈ seen then firstOccs seen rest
    else n :: firstOccs (n :: seen) rest

/-- All schedule entries of one doctor, in scan order. -/
def schedsFor (occ : List Occ) (nm : String) : List SchedEntry :=
  (occ.filter (fun oc => oc.name == nm)).map occEntry

/-- The office of the first-encountered occurrence of a name. -/
def firstOfficeFor (occ : List Occ) (nm : String) : String :=
  match occ.find? (fun oc => oc.name == nm) with
  | some oc => oc.office
  | none => ""

/-- The groups created for the names of `occ` not in `seen`, in
first-encounter order. -/
def newGroups (seen : List String) (occ : List Occ) : OMap DoctorGroup :=
  (firstOccs seen (occ.map Occ.name)).map (fun nm =>
    (nm, ⟨schedsFor occ nm, getSpecialtyFromOfficeId (firstOfficeFor occ nm)⟩))

/-- The spec's search result. -/
def specSearch (q : String) (ms : MedicalSchedule) : OMap DoctorGroup :=
  newGroups [] (occsOf q ms)

/-- An accumulator extended by the occurrences `occ`: existing groups
get their further entries appended (specialty untouched), then the new
names' groups follow. -/
def mergeAcc (acc : OMap DoctorGroup) (occ : List Occ) : OMap DoctorGroup :=
  acc.map (fun p => (p.1, ⟨p.2.schedules ++ schedsFor occ p.1, p.2.specialty⟩))
    ++ newGroups (keys acc) occ

/-- A stored value the scan reads without throwing: not `null`, and when
it is an object with a truthy `name`, that name is a string. -/
def leafSafe (v : JsonVal) : Bool :=
  match v with
  | .null => false
  | .obj fs =>
    match omapGet fs "name" with
    | some nv => !truthy nv || (match nv with | .str _ => true | _ => false)
    | none => true
  | _ => true

/-- Every stored value of the document is scan-safe. -/
def searchSafe (ms : MedicalSchedule) : Prop :=
  ∀ op ∈ ms, ∀ dp ∈ op.2, ∀ tp ∈ dp.2, leafSafe tp.2 = true

instance searchSafe_dec (ms : MedicalSchedule) : Decidable (searchSafe ms) := by
  unfold searchSafe
  infer_instance

theorem containsLC_empty (q : String) (hq : 1 ≤ q.length) :
    containsLC "" q = false := by
  have hd : q.data ≠ [] := by
    intro h
    have hl : q.length = q.data.length := rfl
    rw [hl, h] at hq
    simp at hq
  show listSub (lowerChars q) (lowerChars "") = false
  have h0 : lowerChars "" = [] := rfl
  rw [h0]
  show (q.data.map Char.toLower).isEmpty = false
  cases hdata : q.data with
  | nil => exact absurd hdata hd
  | cons a l => rfl

theorem matchName_safe (q : String) (v : JsonVal) (hsafe : leafSafe v = true)
    (hq : 1 ≤ q.length) : matchName q v = .ok (specMatch q v) := by
  cases v with
  | null => simp [leafSafe] at hsafe
  | bool b => rfl
  | num n => rfl
  | str s => rfl
  | arr xs => rfl
  | obj fs =>
    cases hn : omapGet fs "name" with
    | none => simp [matchName, specMatch, strNameOf, hn]
    | some nv =>
      simp only [leafSafe, hn] at hsafe
      cases nv with
      | null => simp [matchName, specMatch, strNameOf, hn, truthy]
      | bool b =>
        cases b with
        | false => simp [matchName, specMatch, strNameOf, hn, truthy]
        | true => simp [truthy] at hsafe
      | num n =>
        by_cases h0 : n = 0
        · subst h0
          simp [matchName, specMatch, strNameOf, hn, truthy]
        · simp [truthy, h0] at hsafe
      | str s =>
        by_cases h0 : s = ""
        · subst h0
          simp [matchName, specMatch, strNameOf, hn, truthy,
            containsLC_empty q hq]
        · simp [matchName, specMatch, strNameOf, hn, truthy, h0]
      | arr xs => simp [truthy] at hsafe
      | obj fs2 => simp [truthy] at hsafe

theorem scanSlots_ok (q off dy : String) (slots : List (String × JsonVal))
    (acc : OMap DoctorGroup) (hq : 1 ≤ q.length)
    (hsafe : ∀ tp ∈ slots, leafSafe tp.2 = true) :
    scanSlots q off dy slots acc =
      .ok (List.foldl pushEntry acc (occsOfSlots q off dy slots)) := by
  revert hsafe
  induction slots generalizing acc with
  | nil => intro hsafe; rfl
  | cons tp rest ih =>
    intro hsafe
    obtain ⟨t, v⟩ := tp
    have hv : leafSafe v = true := hsafe (t, v) (List.mem_cons_self _ _)
    have hrest : ∀ tp ∈ rest, leafSafe tp.2 = true :=
      fun tp h => hsafe tp (List.mem_cons_of_mem _ h)
    rw [scanSlots, matchName_safe q v hv hq]
    cases hm : specMatch q v with
    | none =>
      simp only [occsOfSlots, List.filterMap_cons, hm, Option.map_none']
      exact ih acc hrest
    | some nm =>
      simp only [occsOfSlots, List.filterMap_cons, hm, Option.map_some',
        List.foldl_cons]
      exact ih _ hrest

theorem scanDays_ok (q off : String) (days : List (String × DaySchedule))
    (acc : OMap DoctorGroup) (hq : 1 ≤ q.length)
    (hsafe : ∀ dp ∈ days, ∀ tp ∈ dp.2, leafSafe tp.2 = true) :
    scanDays q off days acc =
      .ok (List.foldl pushEntry acc (occsOfDays q off days)) := by
  revert hsafe
  induction days generalizing acc with
  | nil => intro hsafe; rfl
  | cons dp rest ih =>
    intro hsafe
    obtain ⟨dy, ds⟩ := dp
    rw [scanDays,
      scanSlots_ok q off dy ds acc hq (hsafe (dy, ds) (List.mem_cons_self _ _))]
    simp only [occsOfDays, List.flatMap_cons, List.foldl_append]
    exact ih _ (fun dp h => hsafe dp (List.mem_cons_of_mem _ h))

theorem scanOffices_ok (q : String) (ms : MedicalSchedule)
    (acc : OMap DoctorGroup) (hq : 1 ≤ q.length) (hsafe : searchSafe ms) :
    scanOffices q ms acc =
      .ok (List.foldl pushEntry acc (occsOf q ms)) := by
  revert hsafe
  unfold searchSafe
  induction ms generalizing acc with
  | nil => intro hsafe; rfl
  | cons op rest ih =>
    intro hsafe
    obtain ⟨off, os⟩ := op
    rw [scanOffices,
      scanDays_ok q off os acc hq (hsafe (off, os) (List.mem_cons_self _ _))]
    simp only [occsOf, List.flatMap_cons, List.foldl_append]
    exact ih _ (fun op h => hsafe op (List.mem_cons_of_mem _ h))

theorem pushEntry_new (acc : OMap DoctorGroup) (oc : Occ)
    (hg : omapGet acc oc.name = none) :
    pushEntry acc oc = acc ++
      [(oc.name, ⟨[occEntry oc], getSpecialtyFromOfficeId oc.office⟩)] := by
  unfold pushEntry
  simp only [hg, omapGet_set_self, omapSet_set_same]
  rw [omapSet_absent acc oc.name _ hg]
  simp

theorem pushEntry_existing (acc : OMap DoctorGroup) (oc : Occ)
    (g : DoctorGroup) (hg : omapGet acc oc.name = some g) :
    pushEntry acc oc =
      omapSet acc oc.name ⟨g.schedules ++ [occEntry oc], g.specialty⟩ := by
  unfold pushEntry
  simp only [hg]

theorem firstOccs_congr (s1 s2 : List String) (l : List String)
    (h : ∀ a, a ∈ s1 ↔ a ∈ s2) : firstOccs s1 l = firstOccs s2 l := by
  induction l generalizing s1 s2 with
  | nil => rfl
  | cons n rest ih =>
    by_cases hn : n ∈ s1
    · simp only [firstOccs, if_pos hn, if_pos ((h n).mp hn)]
      exact ih s1 s2 h
    · have hn2 : n ∉ s2 := fun h2 => hn ((h n).mpr h2)
      simp only [firstOccs, if_neg hn, if_neg hn2]
      rw [ih (n :: s1) (n :: s2) (fun a => by simp [h a])]

theorem mem_firstOccs_not_seen (seen l : List String) (a : String)
    (h : a ∈ firstOccs seen l) : a ∉ seen := by
  induction l generalizing seen with
  | nil => simp [firstOccs] at h
  | cons n rest ih =>
    by_cases hn : n ∈ seen
    · simp only [firstOccs, if_pos hn] at h
      exact ih seen h
    · simp only [firstOccs, if_neg hn] at h
      rcases List.mem_cons.mp h with h1 | h2
      · subst h1
        exact hn
      · intro hs
        exact ih (n :: seen) h2 (List.mem_cons_of_mem _ hs)

theorem schedsFor_cons_self (oc : Occ) (rest : List Occ) :
    schedsFor (oc :: rest) oc.name = occEntry oc :: schedsFor rest oc.name := by
  simp [schedsFor, List.filter_cons]

theorem schedsFor_cons_ne (oc : Occ) (rest : List Occ) (nm : String)
    (h : oc.name ≠ nm) :
    schedsFor (oc :: rest) nm = schedsFor rest nm := by
  simp [schedsFor, List.filter_cons, h]

theorem firstOfficeFor_cons_self (oc : Occ) (rest : List Occ) :
    firstOfficeFor (oc :: rest) oc.name = oc.office := by
  simp [firstOfficeFor, List.find?_cons]

theorem firstOfficeFor_cons_ne (oc : Occ) (rest : List Occ) (nm : String)
    (h : oc.name ≠ nm) :
    firstOfficeFor (oc :: rest) nm = firstOfficeFor rest nm := by
  simp [firstOfficeFor, List.find?_cons, h]

theorem mem_keys_of_get {α : Type} (m : OMap α) (k : String) (v : α)
    (h : omapGet m k = some v) : k ∈ keys m :=
  List.mem_map_of_mem Prod.fst (omapGet_mem m k v h)

theorem mergeAcc_nil (acc : OMap DoctorGroup) : mergeAcc acc [] = acc := by
  simp [mergeAcc, newGroups, firstOccs, schedsFor]

theorem omapSet_map_append (acc : OMap DoctorGroup) (oc : Occ)
    (rest : List Occ) (g : DoctorGroup) (hnd : (keys acc).Nodup)
    (hg : omapGet acc oc.name = some g) :
    (omapSet acc oc.name
        (⟨g.schedules ++ [occEntry oc], g.specialty⟩ : DoctorGroup)).map
        (fun p => (p.1,
          (⟨p.2.schedules ++ schedsFor rest p.1, p.2.specialty⟩ :
            DoctorGroup)))
      = acc.map (fun p => (p.1,
          (⟨p.2.schedules ++ schedsFor (oc :: rest) p.1, p.2.specialty⟩ :
            DoctorGroup))) := by
  induction acc with
  | nil => simp [omapGet] at hg
  | cons p t ih =>
    obtain ⟨k, gk⟩ := p
    simp only [keys_cons, List.nodup_cons] at hnd
    by_cases hk : k = oc.name
    · subst hk
      have hgk : gk = g := by
        simp [omapGet] at hg
        exact hg
      subst hgk
      have hset : omapSet ((oc.name, gk) :: t) oc.name
          (⟨gk.schedules ++ [occEntry oc], gk.specialty⟩ : DoctorGroup)
          = (oc.name,
              (⟨gk.schedules ++ [occEntry oc], gk.specialty⟩ :
                DoctorGroup)) :: t := by
        simp [omapSet]
      rw [hset, List.map_cons, List.map_cons]
      congr 1
      · simp [schedsFor_cons_self, List.append_assoc]
      · apply List.map_congr_left
        intro p2 hp2
        have hne : oc.name ≠ p2.1 := by
          intro he
          exact hnd.1 (he ▸ List.mem_map_of_mem Prod.fst hp2)
        simp [schedsFor_cons_ne oc rest p2.1 hne]
    · have hg2 : omapGet t oc.name = some g := by
        simpa [omapGet, hk] using hg
      have hset : omapSet ((k, gk) :: t) oc.name
          (⟨g.schedules ++ [occEntry oc], g.specialty⟩ : DoctorGroup)
          = (k, gk) :: omapSet t oc.name
              (⟨g.schedules ++ [occEntry oc], g.specialty⟩ : DoctorGroup) := by
        simp [omapSet, hk]
      rw [hset, List.map_cons, List.map_cons]
      congr 1
      · have hne : oc.name ≠ k := fun he => hk he.symm
        simp [schedsFor_cons_ne oc rest k hne]
      · exact ih hnd.2 hg2

theorem mergeAcc_old (acc : OMap DoctorGroup) (oc : Occ) (rest : List Occ)
    (g : DoctorGroup) (hnd : (keys acc).Nodup)
    (hg : omapGet acc oc.name = some g) :
    mergeAcc (omapSet acc oc.name ⟨g.schedules ++ [occEntry oc], g.specialty⟩)
        rest = mergeAcc acc (oc :: rest) := by
  unfold mergeAcc
  rw [omapSet_keys_of_mem acc oc.name _ g hg,
    omapSet_map_append acc oc rest g hnd hg]
  congr 1
  unfold newGroups
  have hmem : oc.name ∈ keys acc := mem_keys_of_get acc oc.name g hg
  rw [List.map_cons]
  rw [show firstOccs (keys acc) (oc.name :: rest.map Occ.name)
      = firstOccs (keys acc) (rest.map Occ.name) from by
    simp [firstOccs, hmem]]
  apply List.map_congr_left
  intro nm hnm
  have hns : nm ∉ keys acc := mem_firstOccs_not_seen _ _ nm hnm
  have hne : oc.name ≠ nm := fun he => hns (he ▸ hmem)
  rw [schedsFor_cons_ne oc rest nm hne, firstOfficeFor_cons_ne oc rest nm hne]

theorem mergeAcc_new (acc : OMap DoctorGroup) (oc : Occ) (rest : List Occ)
    (hg : omapGet acc oc.name = none) :
    mergeAcc (acc ++ [(oc.name,
        ⟨[occEntry oc], getSpecialtyFromOfficeId oc.office⟩)]) rest =
      mergeAcc acc (oc :: rest) := by
  have hnm : oc.name ∉ keys acc := (omapGet_none_iff acc oc.name).mp hg
  unfold mergeAcc newGroups
  rw [List.map_append, keys_append, List.append_assoc]
  have hfo : firstOccs (keys acc) ((oc :: rest).map Occ.name)
      = oc.name :: firstOccs (oc.name :: keys acc) (rest.map Occ.name) := by
    simp [firstOccs, hnm]
  rw [hfo, List.map_cons]
  congr 1
  · apply List.map_congr_left
    intro p hp
    have hne : oc.name ≠ p.1 := fun he =>
      hnm (he ▸ List.mem_map_of_mem Prod.fst hp)
    simp [schedsFor_cons_ne oc rest p.1 hne]
  · simp only [List.map_cons, List.map_nil, List.nil_append,
      List.singleton_append, keys_cons, keys_nil]
    congr 1
    · simp [schedsFor_cons_self, firstOfficeFor_cons_self]
    · rw [firstOccs_congr (oc.name :: keys acc) (keys acc ++ [oc.name])
        (rest.map Occ.name) (fun a => by simp [or_comm])]
      apply List.map_congr_left
      intro nm hnm2
      have hns := mem_firstOccs_not_seen _ _ nm hnm2
      have hne : oc.name ≠ nm := fun he => hns (by simp [he])
      simp [schedsFor_cons_ne oc rest nm hne,
        firstOfficeFor_cons_ne oc rest nm hne]

theorem foldl_pushEntry (occ : List Occ) (acc : OMap DoctorGroup)
    (hnd : (keys acc).Nodup) :
    List.foldl pushEntry acc occ = mergeAcc acc occ := by
  induction occ generalizing acc with
  | nil => rw [List.foldl_nil, mergeAcc_nil]
  | cons oc rest ih =>
    rw [List.foldl_cons]
    cases hg : omapGet acc oc.name with
    | none =>
      have hnm : oc.name ∉ keys acc := (omapGet_none_iff acc oc.name).mp hg
      have hnd2 : (keys (acc ++ [(oc.name,
          (⟨[occEntry oc], getSpecialtyFromOfficeId oc.office⟩ :
            DoctorGroup))])).Nodup := by
        rw [keys_append]
        refine List.nodup_append.mpr ⟨hnd, List.nodup_singleton _, ?_⟩
        intro a ha ha2
        simp [keys] at ha2
        exact hnm (ha2 ▸ ha)
      rw [pushEntry_new acc oc hg, ih _ hnd2]
      exact mergeAcc_new acc oc rest hg
    | some g =>
      have hnd2 : (keys (omapSet acc oc.name
          (⟨g.schedules ++ [occEntry oc], g.specialty⟩ :
            DoctorGroup))).Nodup := by
        rw [omapSet_keys_of_mem acc oc.name _ g hg]
        exact hnd
      rw [pushEntry_existing acc oc g hg, ih _ hnd2]
      exact mergeAcc_old acc oc rest g hnd hg

/-- C5: for every query of length at least 2 on a scan-safe document,
`SearchDoctorsByName` answers exactly the spec's declarative grouping
`specSearch`: the assignments whose string `name` contains the query as
a case-insensitive substring, scanned office by office, day by day, slot
by slot in insertion order, grouped under one entry per doctor name in
first-encounter order with the group's entries in scan order, the
specialty computed once per name from the office id of its
first-encountered occurrence. -/
theorem search_matches_spec (q : String) (ms : MedicalSchedule)
    (hq : 2 ≤ q.length) (hsafe : searchSafe ms) :
    searchRoute (some q) ms =
      .ok (SearchResults.grouped (specSearch q ms)) := by
  have hq1 : 1 ≤ q.length := le_trans (by norm_num) hq
  have hne : ¬(q = "" ∨ q.length < 2) := by
    rintro (h0 | h1)
    · subst h0
      exact absurd hq (by decide)
    · omega
  simp only [searchRoute]
  rw [if_neg hne, scanOffices_ok q ms [] hq1 hsafe,
    foldl_pushEntry (occsOf q ms) [] (by simp [keys])]
  rfl

/-- Witness for C5: the spec §8 scenario — query `"ana"` matches both
`"Ana Souza"` and `"mariana"` on the populated store. -/
theorem search_matches_spec_witness :
    2 ≤ ("ana" : String).length ∧ searchSafe exSearchMS ∧
    searchRoute (some "ana") exSearchMS =
      .ok (SearchResults.grouped (specSearch "ana" exSearchMS)) :=
  ⟨by decide, by decide,
    search_matches_spec "ana" exSearchMS (by decide) (by decide)⟩

end Escalas
